import Mathlib

/-!
Shallow embedding of the Take-Grant access-control core
(`modules/access_graph.py` and `modules/security_kernel.py`), plus the
edge-deletion loop of `OperationsModule.delete_object`
(`modules/operations.py`).

Python dictionaries are modelled as association lists with the usual
dictionary operations (lookup with default, assignment, deletion,
membership); Python sets become `Finset`.
-/

/-- The six access rights of `access_graph.AccessRight`. -/
inductive AccessRight : Type
  | READ
  | WRITE
  | EXECUTE
  | TAKE
  | GRANT
  | OWN
deriving DecidableEq

/-- `d.get(k, default)` on an association list. -/
def lookupD {K V : Type} [DecidableEq K] (l : List (K × V)) (k : K) (d : V) : V :=
  match l.find? (fun p => p.1 = k) with
  | some p => p.2
  | none => d

/-- `k in d` on an association list. -/
def memberK {K V : Type} [DecidableEq K] (l : List (K × V)) (k : K) : Bool :=
  (l.find? (fun p => p.1 = k)).isSome

/-- `d[k] = v` on an association list: replace the first binding of `k`,
or append a new binding. -/
def setK {K V : Type} [DecidableEq K] : List (K × V) → K → V → List (K × V)
  | [], k, v => [(k, v)]
  | p :: rest, k, v => if p.1 = k then (k, v) :: rest else p :: setK rest k v

/-- `del d[k]` on an association list (keys are unique in a dictionary,
so removing every binding of `k` is the deletion of its one binding). -/
def eraseK {K V : Type} [DecidableEq K] (l : List (K × V)) (k : K) : List (K × V) :=
  l.filter (fun p => ¬ p.1 = k)

/-- The state of `access_graph.AccessGraph`: the primary edge map and the
two derived indices. -/
@[ext] structure AccessGraph : Type where
  graph : List ((String × String) × Finset AccessRight)
  subject_edges : List (String × List String)
  object_edges : List (String × List String)
deriving DecidableEq

/-- `AccessGraph.__init__`: all three dictionaries empty. -/
def emptyAG : AccessGraph := ⟨[], [], []⟩

/-- The six rights in declaration order; used to iterate a Python set of
rights (iteration order of a set is unspecified and the iterated updates
commute, so any fixed enumeration is faithful). -/
def rightsOrder : List AccessRight :=
  [AccessRight.READ, AccessRight.WRITE, AccessRight.EXECUTE,
   AccessRight.TAKE, AccessRight.GRANT, AccessRight.OWN]

/-- Computable enumeration of a finite set of rights. -/
def rightsToList (s : Finset AccessRight) : List AccessRight :=
  rightsOrder.filter (fun r => r ∈ s)

/-- A Python set of identifiers, modelled as a duplicate-free list:
`set.add`. -/
def insertStr (x : String) (l : List String) : List String :=
  if x ∈ l then l else x :: l

/-- `set.discard` on a list-modelled set of identifiers. -/
def removeStr (x : String) (l : List String) : List String :=
  l.filter (fun y => ¬ y = x)

/-- `AccessGraph.add_right`. -/
def add_right (g : AccessGraph) (subject_id object_id : String) (right : AccessRight) :
    AccessGraph :=
  let edge := (subject_id, object_id)
  { graph := setK g.graph edge (insert right (lookupD g.graph edge ∅)),
    subject_edges :=
      setK g.subject_edges subject_id
        (insertStr object_id (lookupD g.subject_edges subject_id [])),
    object_edges :=
      setK g.object_edges object_id
        (insertStr subject_id (lookupD g.object_edges object_id [])) }

/-- `AccessGraph.remove_right`. -/
def remove_right (g : AccessGraph) (subject_id object_id : String) (right : AccessRight) :
    AccessGraph :=
  let edge := (subject_id, object_id)
  if memberK g.graph edge then
    let rs := (lookupD g.graph edge ∅).erase right
    if rs = ∅ then
      { graph := eraseK g.graph edge,
        subject_edges :=
          setK g.subject_edges subject_id
            (removeStr object_id (lookupD g.subject_edges subject_id [])),
        object_edges :=
          setK g.object_edges object_id
            (removeStr subject_id (lookupD g.object_edges object_id [])) }
    else
      { g with graph := setK g.graph edge rs }
  else g

/-- `AccessGraph.has_right`. -/
def has_right (g : AccessGraph) (subject_id object_id : String) (right : AccessRight) :
    Bool :=
  memberK g.graph (subject_id, object_id) &&
    decide (right ∈ lookupD g.graph (subject_id, object_id) ∅)

/-- `AccessGraph.get_rights`. -/
def get_rights (g : AccessGraph) (subject_id object_id : String) : Finset AccessRight :=
  lookupD g.graph (subject_id, object_id) ∅

/-- `AccessGraph.take`; the mutated graph is returned alongside the boolean. -/
def take (g : AccessGraph) (subject_id source_object_id target_object_id : String)
    (rights : Finset AccessRight) : Bool × AccessGraph :=
  if ¬ has_right g subject_id source_object_id AccessRight.TAKE then (false, g)
  else
    let source_rights := get_rights g source_object_id target_object_id
    if source_rights = ∅ then (false, g)
    else
      let available_rights := rights ∩ source_rights
      let g2 := (rightsToList available_rights).foldl
        (fun h r => add_right h subject_id target_object_id r) g
      (decide (0 < available_rights.card), g2)

/-- `AccessGraph.grant`; the mutated graph is returned alongside the boolean. -/
def grant (g : AccessGraph) (subject_id source_object_id target_subject_id : String)
    (rights : Finset AccessRight) : Bool × AccessGraph :=
  if ¬ has_right g subject_id source_object_id AccessRight.GRANT then (false, g)
  else
    let subject_rights := get_rights g subject_id source_object_id
    if subject_rights = ∅ then (false, g)
    else
      let available_rights := rights ∩ subject_rights
      let g2 := (rightsToList available_rights).foldl
        (fun h r => add_right h target_subject_id source_object_id r) g
      (decide (0 < available_rights.card), g2)

/-- The default rights set of `AccessGraph.create`. -/
def ALL_RIGHTS : Finset AccessRight :=
  {AccessRight.READ, AccessRight.WRITE, AccessRight.EXECUTE,
   AccessRight.TAKE, AccessRight.GRANT, AccessRight.OWN}

/-- `AccessGraph.create`; `none` is Python's omitted `rights` argument. -/
def create (g : AccessGraph) (subject_id object_id : String)
    (rights : Option (Finset AccessRight)) : Bool × AccessGraph :=
  let rs := match rights with
    | none => ALL_RIGHTS
    | some r => r
  (true, (rightsToList rs).foldl (fun h r => add_right h subject_id object_id r) g)

/-- `AccessGraph.remove`. -/
def removeRights (g : AccessGraph) (subject_id object_id : String)
    (rights : Finset AccessRight) : AccessGraph :=
  (rightsToList rights).foldl (fun h r => remove_right h subject_id object_id r) g

/-- `AccessGraph.get_subject_objects`. -/
def get_subject_objects (g : AccessGraph) (subject_id : String) : List String :=
  lookupD g.subject_edges subject_id []

/-- `AccessGraph.get_object_subjects`. -/
def get_object_subjects (g : AccessGraph) (object_id : String) : List String :=
  lookupD g.object_edges object_id []

/-- `AccessGraph.get_all_edges`: the non-empty entries of the edge map. -/
def get_all_edges (g : AccessGraph) : List ((String × String) × Finset AccessRight) :=
  g.graph.filter (fun p => ¬ p.2 = ∅)

/-- The edge-removal loop of `OperationsModule.delete_object`: every entry
whose object is `object_id` is deleted from the primary edge map directly
(`del self.access_graph.graph[(s, o)]`), with no update to the indices. -/
def delete_object_edges (g : AccessGraph) (object_id : String) : AccessGraph :=
  { g with graph := g.graph.filter (fun p => ¬ p.1.2 = object_id) }

/-- The objects collected by the grant-branch of
`SecurityKernel._dfs_search`: `for (s, o) in graph.items(): all_objects.add(o)`. -/
def allObjects (g : AccessGraph) : List String :=
  (g.graph.map (fun p => p.1.2)).dedup

/-- The grant-branch test of `SecurityKernel._dfs_search`: some object `i`
of the graph has a subject `gs` (per the object index) holding GRANT on it
while `i` itself holds the required right on the target; the branch never
consults the searching subject. -/
def grantBranch (g : AccessGraph) (target_object : String) (required_right : AccessRight) :
    Bool :=
  (allObjects g).any (fun i =>
    (get_object_subjects g i).any (fun gs =>
      has_right g gs i AccessRight.GRANT && has_right g i target_object required_right))

/-- Short-circuiting loop of the take-branch: `some true` as soon as one
iteration returns true, `some false` when the loop falls through, `none`
when a recursive call ran out of fuel. -/
def anyStep : List String → (String → Option Bool) → Option Bool
  | [], _ => some false
  | x :: xs, f =>
    match f x with
    | some true => some true
    | some false => anyStep xs f
    | none => none

/-- `SecurityKernel._dfs_search`, made total with a fuel parameter: `none`
means the fuel ran out, `some b` is the Python result. The visited set is
extended with the current subject and passed as a copy to every recursive
call of the take-branch. -/
def dfs_search (g : AccessGraph) (target_object : String) (required_right : AccessRight) :
    Nat → String → Finset String → Option Bool
  | 0, _, _ => none
  | Nat.succ fuel, current_subject, visited =>
    if current_subject ∈ visited then some false
    else if has_right g current_subject target_object required_right then some true
    else
      match anyStep (get_subject_objects g current_subject) (fun i =>
          if ¬ has_right g current_subject i AccessRight.TAKE then some false
          else if has_right g i target_object required_right then some true
          else dfs_search g target_object required_right fuel i
            (insert current_subject visited)) with
      | some true => some true
      | some false => some (grantBranch g target_object required_right)
      | none => none

/-- The identifiers the take-branch can recurse into: the union of the
value sets of the subject index. -/
def subjUniverse (g : AccessGraph) : Finset String :=
  g.subject_edges.foldr (fun p acc => p.2.toFinset ∪ acc) ∅

/-- Fuel sufficient for `dfs_search` to complete from an empty visited set. -/
def bigFuel (g : AccessGraph) : Nat := (subjUniverse g).card + 2

/-- `SecurityKernel.can_access`: direct check, then
`_find_access_path` = DFS from an empty visited set. -/
def can_access (g : AccessGraph) (subject_id object_id : String)
    (required_right : AccessRight) : Bool :=
  if has_right g subject_id object_id required_right then true
  else (dfs_search g object_id required_right (bigFuel g) subject_id ∅).getD false

/-- The node set collected by `SecurityKernel.get_accessible_objects`:
both endpoints of every edge. -/
def allNodes (g : AccessGraph) : List String :=
  ((g.graph.map (fun p => p.1.2)) ++ (g.graph.map (fun p => p.1.1))).dedup

/-- `SecurityKernel.get_accessible_objects`. -/
def get_accessible_objects (g : AccessGraph) (subject_id : String)
    (required_right : AccessRight) : List String :=
  (allNodes g).filter (fun o => can_access g subject_id o required_right)

/-- `SecurityKernel.check_right`: an alias of `can_access`. -/
def check_right (g : AccessGraph) (subject_id object_id : String)
    (right : AccessRight) : Bool :=
  can_access g subject_id object_id right

/-- A mutating operation of the access-control core (the mutators of
`AccessGraph`). -/
inductive CoreOp : Type
  | addR (s o : String) (r : AccessRight)
  | remR (s o : String) (r : AccessRight)
  | takeOp (s src tgt : String) (rs : Finset AccessRight)
  | grantOp (s src tgt : String) (rs : Finset AccessRight)
  | createOp (s o : String) (rs : Option (Finset AccessRight))
  | removeOp (s o : String) (rs : Finset AccessRight)

/-- Apply one core mutator to a graph. -/
def applyOp (g : AccessGraph) : CoreOp → AccessGraph
  | CoreOp.addR s o r => add_right g s o r
  | CoreOp.remR s o r => remove_right g s o r
  | CoreOp.takeOp s src tgt rs => (take g s src tgt rs).2
  | CoreOp.grantOp s src tgt rs => (grant g s src tgt rs).2
  | CoreOp.createOp s o rs => (create g s o rs).2
  | CoreOp.removeOp s o rs => removeRights g s o rs

/-- Run a sequence of core mutators from the empty graph. -/
def runOps (ops : List CoreOp) : AccessGraph :=
  ops.foldl applyOp emptyAG

/-- The mirror invariant of the spec: an identifier pair is in either
index exactly when the corresponding edge is present with a non-empty
right-set. -/
def MirrorInv (g : AccessGraph) : Prop :=
  ∀ s o : String,
    ((o ∈ get_subject_objects g s) ↔ get_rights g s o ≠ ∅) ∧
    ((s ∈ get_object_subjects g o) ↔ get_rights g s o ≠ ∅)

/-- The concrete graph of the C5 scenario: `subject` holds only READ on
`file2`. -/
def g5 : AccessGraph := add_right emptyAG "subject" "file2" AccessRight.READ

/-- The concrete graph of the C6 counterexample: `s` already holds READ on
`f`. -/
def g6 : AccessGraph := add_right emptyAG "s" "f" AccessRight.READ

/-- The graph after adding one edge and then bulk-deleting its object via
the surrounding layer's `delete_object` loop. -/
def g1bug : AccessGraph :=
  delete_object_edges (add_right emptyAG "a" "f" AccessRight.READ) "f"

/-- Witness graph for the amended C2: two disjoint components and no
grant configuration towards Y. -/
def gw2 : AccessGraph :=
  add_right (add_right emptyAG "X" "A" AccessRight.READ) "I" "Y" AccessRight.READ

/-- The counterexample graph for C2 as stated: component {X, A} is
disjoint from component {G, I, Y}, and the second component contains a
grant configuration towards Y. -/
def g2 : AccessGraph :=
  add_right (add_right (add_right emptyAG "X" "A" AccessRight.READ) "G" "I"
    AccessRight.GRANT) "I" "Y" AccessRight.READ

section AssocLemmas

variable {K V : Type} [DecidableEq K]

omit [DecidableEq K] in
theorem neq_symm {a b : K} (h : ¬ a = b) : ¬ b = a := fun hh => h hh.symm

theorem lookupD_nil (k : K) (d : V) : lookupD [] k d = d := rfl

theorem lookupD_cons (a : K) (v : V) (l : List (K × V)) (k : K) (d : V) :
    lookupD ((a, v) :: l) k d = if a = k then v else lookupD l k d := by
  by_cases h : a = k <;> simp [lookupD, List.find?, h]

theorem memberK_nil (k : K) : memberK ([] : List (K × V)) k = false := rfl

theorem memberK_cons (a : K) (v : V) (l : List (K × V)) (k : K) :
    memberK ((a, v) :: l) k = if a = k then true else memberK l k := by
  by_cases h : a = k <;> simp [memberK, List.find?, h]

theorem setK_nil (k : K) (v : V) : setK ([] : List (K × V)) k v = [(k, v)] := rfl

theorem setK_cons_self (a : K) (w : V) (l : List (K × V)) (k : K) (v : V) (h : a = k) :
    setK ((a, w) :: l) k v = (k, v) :: l := by
  simp [setK, h]

theorem setK_cons_ne (a : K) (w : V) (l : List (K × V)) (k : K) (v : V) (h : ¬ a = k) :
    setK ((a, w) :: l) k v = (a, w) :: setK l k v := by
  simp [setK, h]

theorem eraseK_nil (k : K) : eraseK ([] : List (K × V)) k = [] := rfl

theorem eraseK_cons_self (a : K) (w : V) (l : List (K × V)) (k : K) (h : a = k) :
    eraseK ((a, w) :: l) k = eraseK l k := by
  simp [eraseK, List.filter_cons, h]

theorem eraseK_cons_ne (a : K) (w : V) (l : List (K × V)) (k : K) (h : ¬ a = k) :
    eraseK ((a, w) :: l) k = (a, w) :: eraseK l k := by
  simp [eraseK, List.filter_cons, h]

theorem lookupD_setK_self (l : List (K × V)) (k : K) (v d : V) :
    lookupD (setK l k v) k d = v := by
  induction l with
  | nil => rw [setK_nil, lookupD_cons, if_pos rfl]
  | cons p rest ih =>
    obtain ⟨a, w⟩ := p
    by_cases hak : a = k
    · rw [setK_cons_self a w rest k v hak, lookupD_cons, if_pos rfl]
    · rw [setK_cons_ne a w rest k v hak, lookupD_cons, if_neg hak, ih]

theorem lookupD_setK_ne (l : List (K × V)) (k k2 : K) (v d : V) (h : ¬ k2 = k) :
    lookupD (setK l k v) k2 d = lookupD l k2 d := by
  induction l with
  | nil => rw [setK_nil, lookupD_cons, if_neg (neq_symm h)]
  | cons p rest ih =>
    obtain ⟨a, w⟩ := p
    by_cases hak : a = k
    · rw [setK_cons_self a w rest k v hak, lookupD_cons, if_neg (neq_symm h),
        lookupD_cons, if_neg]
      rw [hak]
      exact neq_symm h
    · rw [setK_cons_ne a w rest k v hak, lookupD_cons, lookupD_cons]
      by_cases hax : a = k2
      · rw [if_pos hax, if_pos hax]
      · rw [if_neg hax, if_neg hax, ih]

theorem memberK_setK_self (l : List (K × V)) (k : K) (v : V) :
    memberK (setK l k v) k = true := by
  induction l with
  | nil => rw [setK_nil, memberK_cons, if_pos rfl]
  | cons p rest ih =>
    obtain ⟨a, w⟩ := p
    by_cases hak : a = k
    · rw [setK_cons_self a w rest k v hak, memberK_cons, if_pos rfl]
    · rw [setK_cons_ne a w rest k v hak, memberK_cons, if_neg hak, ih]

theorem memberK_setK_ne (l : List (K × V)) (k k2 : K) (v : V) (h : ¬ k2 = k) :
    memberK (setK l k v) k2 = memberK l k2 := by
  induction l with
  | nil => rw [setK_nil, memberK_cons, if_neg (neq_symm h)]
  | cons p rest ih =>
    obtain ⟨a, w⟩ := p
    by_cases hak : a = k
    · rw [setK_cons_self a w rest k v hak, memberK_cons, if_neg (neq_symm h),
        memberK_cons, if_neg]
      rw [hak]
      exact neq_symm h
    · rw [setK_cons_ne a w rest k v hak, memberK_cons, memberK_cons]
      by_cases hax : a = k2
      · rw [if_pos hax, if_pos hax]
      · rw [if_neg hax, if_neg hax, ih]

theorem lookupD_eraseK_self (l : List (K × V)) (k : K) (d : V) :
    lookupD (eraseK l k) k d = d := by
  induction l with
  | nil => rfl
  | cons p rest ih =>
    obtain ⟨a, w⟩ := p
    by_cases hak : a = k
    · rw [eraseK_cons_self a w rest k hak, ih]
    · rw [eraseK_cons_ne a w rest k hak, lookupD_cons, if_neg hak, ih]

theorem lookupD_eraseK_ne (l : List (K × V)) (k k2 : K) (d : V) (h : ¬ k2 = k) :
    lookupD (eraseK l k) k2 d = lookupD l k2 d := by
  induction l with
  | nil => rfl
  | cons p rest ih =>
    obtain ⟨a, w⟩ := p
    by_cases hak : a = k
    · rw [eraseK_cons_self a w rest k hak, ih, lookupD_cons, if_neg]
      rw [hak]
      exact neq_symm h
    · rw [eraseK_cons_ne a w rest k hak, lookupD_cons, lookupD_cons]
      by_cases hax : a = k2
      · rw [if_pos hax, if_pos hax]
      · rw [if_neg hax, if_neg hax, ih]

theorem memberK_eraseK_self (l : List (K × V)) (k : K) :
    memberK (eraseK l k) k = false := by
  induction l with
  | nil => rfl
  | cons p rest ih =>
    obtain ⟨a, w⟩ := p
    by_cases hak : a = k
    · rw [eraseK_cons_self a w rest k hak, ih]
    · rw [eraseK_cons_ne a w rest k hak, memberK_cons, if_neg hak, ih]

theorem memberK_eraseK_ne (l : List (K × V)) (k k2 : K) (h : ¬ k2 = k) :
    memberK (eraseK l k) k2 = memberK l k2 := by
  induction l with
  | nil => rfl
  | cons p rest ih =>
    obtain ⟨a, w⟩ := p
    by_cases hak : a = k
    · rw [eraseK_cons_self a w rest k hak, ih, memberK_cons, if_neg]
      rw [hak]
      exact neq_symm h
    · rw [eraseK_cons_ne a w rest k hak, memberK_cons, memberK_cons]
      by_cases hax : a = k2
      · rw [if_pos hax, if_pos hax]
      · rw [if_neg hax, if_neg hax, ih]

theorem setK_setK (l : List (K × V)) (k : K) (v w : V) :
    setK (setK l k v) k w = setK l k w := by
  induction l with
  | nil => simp [setK]
  | cons p rest ih =>
    obtain ⟨a, u⟩ := p
    by_cases hak : a = k
    · simp [setK, hak]
    · simp [setK, hak, ih]

theorem setK_lookup_self (l : List (K × V)) (k : K) (d : V)
    (h : memberK l k = true) : setK l k (lookupD l k d) = l := by
  induction l with
  | nil => simp [memberK_nil] at h
  | cons p rest ih =>
    obtain ⟨a, u⟩ := p
    rw [memberK_cons] at h
    by_cases hak : a = k
    · rw [lookupD_cons, if_pos hak, setK_cons_self a u rest k u hak, hak]
    · simp only [hak, if_false] at h
      rw [lookupD_cons, if_neg hak, setK_cons_ne a u rest k _ hak, ih h]

theorem lookupD_mem (l : List (K × V)) (k : K) (d : V)
    (h : memberK l k = true) : (k, lookupD l k d) ∈ l := by
  induction l with
  | nil => simp [memberK_nil] at h
  | cons p rest ih =>
    obtain ⟨a, u⟩ := p
    rw [memberK_cons] at h
    by_cases hak : a = k
    · rw [lookupD_cons, if_pos hak]
      rw [hak]
      exact List.mem_cons_self _ _
    · simp only [hak, if_false] at h
      rw [lookupD_cons, if_neg hak]
      exact List.mem_cons_of_mem _ (ih h)

theorem not_memberK_lookupD (l : List (K × V)) (k : K) (d : V)
    (h : memberK l k = false) : lookupD l k d = d := by
  induction l with
  | nil => rfl
  | cons p rest ih =>
    obtain ⟨a, u⟩ := p
    rw [memberK_cons] at h
    by_cases hak : a = k
    · simp [hak] at h
    · rw [lookupD_cons, if_neg hak]
      apply ih
      simpa [hak] using h

end AssocLemmas

section GraphLemmas

theorem get_rights_add_self (g : AccessGraph) (s o : String) (r : AccessRight) :
    get_rights (add_right g s o r) s o = insert r (get_rights g s o) := by
  simp only [get_rights, add_right]
  exact lookupD_setK_self _ _ _ _

theorem get_rights_add_ne (g : AccessGraph) (s o s2 o2 : String) (r : AccessRight)
    (h : ¬ (s2, o2) = (s, o)) :
    get_rights (add_right g s o r) s2 o2 = get_rights g s2 o2 := by
  simp only [get_rights, add_right]
  exact lookupD_setK_ne _ _ _ _ _ h

theorem memberK_add_self (g : AccessGraph) (s o : String) (r : AccessRight) :
    memberK (add_right g s o r).graph (s, o) = true := by
  simp only [add_right]
  exact memberK_setK_self _ _ _

theorem has_right_iff (g : AccessGraph) (s o : String) (r : AccessRight) :
    has_right g s o r = true ↔ r ∈ get_rights g s o := by
  simp only [has_right, get_rights, Bool.and_eq_true, decide_eq_true_eq]
  constructor
  · exact fun h => h.2
  · intro h
    refine ⟨?_, h⟩
    by_cases hm : memberK g.graph (s, o)
    · exact hm
    · rw [not_memberK_lookupD _ _ _ (by simpa using hm)] at h
      simp at h

theorem has_right_false_iff (g : AccessGraph) (s o : String) (r : AccessRight) :
    has_right g s o r = false ↔ ¬ r ∈ get_rights g s o := by
  rw [← has_right_iff g s o r]
  constructor
  · intro h hh
    rw [h] at hh
    exact Bool.false_ne_true hh
  · intro h
    by_cases hb : has_right g s o r = true
    · exact absurd hb h
    · simpa using hb

theorem get_subject_objects_add_self (g : AccessGraph) (s o : String) (r : AccessRight) :
    get_subject_objects (add_right g s o r) s =
      insertStr o (get_subject_objects g s) := by
  simp only [get_subject_objects, add_right]
  exact lookupD_setK_self _ _ _ _

theorem get_subject_objects_add_ne (g : AccessGraph) (s o x : String) (r : AccessRight)
    (h : ¬ x = s) :
    get_subject_objects (add_right g s o r) x = get_subject_objects g x := by
  simp only [get_subject_objects, add_right]
  exact lookupD_setK_ne _ _ _ _ _ h

theorem get_object_subjects_add_self (g : AccessGraph) (s o : String) (r : AccessRight) :
    get_object_subjects (add_right g s o r) o =
      insertStr s (get_object_subjects g o) := by
  simp only [get_object_subjects, add_right]
  exact lookupD_setK_self _ _ _ _

theorem get_object_subjects_add_ne (g : AccessGraph) (s o x : String) (r : AccessRight)
    (h : ¬ x = o) :
    get_object_subjects (add_right g s o r) x = get_object_subjects g x := by
  simp only [get_object_subjects, add_right]
  exact lookupD_setK_ne _ _ _ _ _ h

theorem rightsToList_toFinset (s : Finset AccessRight) :
    (rightsToList s).toFinset = s := by
  ext r
  simp only [rightsToList, List.mem_toFinset, List.mem_filter, decide_eq_true_eq]
  constructor
  · exact fun h => h.2
  · intro h
    refine ⟨?_, h⟩
    cases r <;> simp [rightsOrder]

theorem mem_insertStr (y x : String) (l : List String) :
    y ∈ insertStr x l ↔ y = x ∨ y ∈ l := by
  by_cases h : x ∈ l
  · simp only [insertStr, h, if_true]
    constructor
    · exact fun hy => Or.inr hy
    · rintro (hy | hy)
      · rw [hy]
        exact h
      · exact hy
  · simp [insertStr, h]

theorem mem_insertStr_self (x : String) (l : List String) : x ∈ insertStr x l := by
  rw [mem_insertStr]
  exact Or.inl rfl

theorem insertStr_idem (x : String) (l : List String) :
    insertStr x (insertStr x l) = insertStr x l := by
  by_cases hl : x ∈ l
  · simp [insertStr, hl]
  · simp [insertStr, hl]

theorem mem_removeStr (y x : String) (l : List String) :
    y ∈ removeStr x l ↔ ¬ y = x ∧ y ∈ l := by
  rw [removeStr, List.mem_filter]
  constructor
  · intro h
    refine ⟨?_, h.1⟩
    have h2 := h.2
    simp only [decide_not, Bool.not_eq_eq_eq_not, Bool.not_true, decide_eq_false_iff_not] at h2
    exact h2
  · intro h
    refine ⟨h.2, ?_⟩
    simp [h.1]

theorem not_mem_removeStr_self (x : String) (l : List String) :
    ¬ x ∈ removeStr x l := by
  rw [mem_removeStr]
  exact fun h => h.1 rfl

theorem fold_add_get_rights (L : List AccessRight) (g : AccessGraph) (s o : String) :
    get_rights (L.foldl (fun h r => add_right h s o r) g) s o =
      get_rights g s o ∪ L.toFinset := by
  induction L generalizing g with
  | nil => simp
  | cons r L ih =>
    rw [List.foldl_cons, ih, get_rights_add_self]
    ext x
    simp only [Finset.mem_union, Finset.mem_insert, List.toFinset_cons]
    constructor
    · rintro (⟨h | h⟩ | h)
      · exact Or.inr (Or.inl h)
      · exact Or.inl h
      · exact Or.inr (Or.inr h)
    · rintro (h | h | h)
      · exact Or.inl (Or.inr h)
      · exact Or.inl (Or.inl h)
      · exact Or.inr h

theorem fold_add_get_rights_ne (L : List AccessRight) (g : AccessGraph)
    (s o s2 o2 : String) (h : ¬ (s2, o2) = (s, o)) :
    get_rights (L.foldl (fun h r => add_right h s o r) g) s2 o2 =
      get_rights g s2 o2 := by
  induction L generalizing g with
  | nil => rfl
  | cons r L ih => rw [List.foldl_cons, ih, get_rights_add_ne _ _ _ _ _ _ h]

end GraphLemmas

section ClaimC9C10

theorem setK_f_idem {K V : Type} [DecidableEq K] (l : List (K × V)) (k : K) (d : V)
    (f : V → V) (hf : f (f (lookupD l k d)) = f (lookupD l k d)) :
    setK (setK l k (f (lookupD l k d))) k
      (f (lookupD (setK l k (f (lookupD l k d))) k d)) =
    setK l k (f (lookupD l k d)) := by
  rw [lookupD_setK_self, hf, setK_setK]

/-- Claim C9: a directly held right is always reported as reachable:
`hasRight(s,o,r) = true` implies `canAccess(s,o,r) = true`, since
`can_access` checks the direct edge before searching. -/
theorem direct_implies_reachable (g : AccessGraph) (s o : String) (r : AccessRight)
    (h : has_right g s o r = true) : can_access g s o r = true := by
  simp [can_access, h]

/-- Witness for C9 on a concrete one-edge graph. -/
theorem direct_implies_reachable_witness :
    has_right (add_right emptyAG "alice" "file1" AccessRight.READ) "alice" "file1"
        AccessRight.READ = true ∧
    can_access (add_right emptyAG "alice" "file1" AccessRight.READ) "alice" "file1"
        AccessRight.READ = true :=
  ⟨by decide,
   direct_implies_reachable (add_right emptyAG "alice" "file1" AccessRight.READ)
     "alice" "file1" AccessRight.READ (by decide)⟩

/-- Claim C10: `addRight` is idempotent — adding the same right twice yields
exactly the same graph state (edge map and both indices) as adding it once. -/
theorem add_right_idempotent (g : AccessGraph) (s o : String) (r : AccessRight) :
    add_right (add_right g s o r) s o r = add_right g s o r := by
  simp only [add_right]
  refine AccessGraph.ext ?_ ?_ ?_
  · exact setK_f_idem g.graph (s, o) ∅ (fun v => insert r v) (Finset.insert_idem r _)
  · exact setK_f_idem g.subject_edges s [] (fun v => insertStr o v) (insertStr_idem o _)
  · exact setK_f_idem g.object_edges o [] (fun v => insertStr s v) (insertStr_idem s _)

end ClaimC9C10

section ClaimC4C5C6

theorem rightsToList_empty : rightsToList ∅ = [] := by
  simp [rightsToList]

/-- Claim C4: `take(subject, source, target, R)` returns true exactly when
`subject` holds TAKE on `source` and `R` meets the rights `source` holds on
`target`; on success the edge `(subject, target)` becomes its old right-set
united with that intersection (so the gained rights are a subset of the
intersection) and every other edge keeps its rights; on a false return the
graph is completely unchanged. -/
theorem take_spec (g : AccessGraph) (subj src tgt : String) (R : Finset AccessRight) :
    ((take g subj src tgt R).1 = true ↔
      has_right g subj src AccessRight.TAKE = true ∧ R ∩ get_rights g src tgt ≠ ∅) ∧
    ((take g subj src tgt R).1 = true →
      get_rights (take g subj src tgt R).2 subj tgt =
        get_rights g subj tgt ∪ (R ∩ get_rights g src tgt) ∧
      ∀ s2 o2 : String, ¬ (s2, o2) = (subj, tgt) →
        get_rights (take g subj src tgt R).2 s2 o2 = get_rights g s2 o2) ∧
    ((take g subj src tgt R).1 = false → (take g subj src tgt R).2 = g) := by
  by_cases h1 : has_right g subj src AccessRight.TAKE = true
  · by_cases h2 : get_rights g src tgt = ∅
    · have hR : R ∩ get_rights g src tgt = ∅ := by rw [h2]; exact Finset.inter_empty R
      refine ⟨?_, ?_, ?_⟩ <;> simp [take, h1, h2, hR]
    · have hif : take g subj src tgt R =
          (decide (0 < (R ∩ get_rights g src tgt).card),
           (rightsToList (R ∩ get_rights g src tgt)).foldl
             (fun h r => add_right h subj tgt r) g) := by
        simp [take, h1, h2]
      by_cases h3 : R ∩ get_rights g src tgt = ∅
      · have hcard : ¬ 0 < (R ∩ get_rights g src tgt).card := by
          rw [h3]
          simp
        refine ⟨?_, ?_, ?_⟩
        · rw [hif]
          simp [hcard, h3]
        · rw [hif]
          simp [hcard]
        · rw [hif]
          simp [h3, rightsToList_empty]
      · have hcard : 0 < (R ∩ get_rights g src tgt).card :=
          Finset.card_pos.mpr (Finset.nonempty_iff_ne_empty.mpr h3)
        refine ⟨?_, ?_, ?_⟩
        · rw [hif]
          simp [hcard, h1, h3]
        · intro _
          rw [hif]
          constructor
          · rw [fold_add_get_rights, rightsToList_toFinset]
          · intro s2 o2 hne
            rw [fold_add_get_rights_ne _ _ _ _ _ _ hne]
        · rw [hif]
          simp [hcard]
  · refine ⟨?_, ?_, ?_⟩ <;> simp [take, h1]

/-- Witness for C4: taking READ through a TAKE edge on a concrete graph. -/
theorem take_spec_witness :
    (take (add_right (add_right emptyAG "a" "b" AccessRight.TAKE) "b" "c" AccessRight.READ)
        "a" "b" "c" {AccessRight.READ}).1 = true :=
  ((take_spec (add_right (add_right emptyAG "a" "b" AccessRight.TAKE) "b" "c"
      AccessRight.READ) "a" "b" "c" {AccessRight.READ}).1).mpr (by decide)


/-- Claim C5: when a grant or take precondition fails (no GRANT/TAKE right,
or none of the requested rights are held on the relevant edge) the
operation returns false and leaves the whole graph state unchanged; in
particular grant by a subject holding only READ on file2 cannot give WRITE
away. -/
theorem precondition_failure_no_change (g : AccessGraph)
    (subj src tgt : String) (R : Finset AccessRight) :
    ((has_right g subj src AccessRight.GRANT = false ∨ R ∩ get_rights g subj src = ∅) →
      grant g subj src tgt R = (false, g)) ∧
    ((has_right g subj src AccessRight.TAKE = false ∨ R ∩ get_rights g src tgt = ∅) →
      take g subj src tgt R = (false, g)) ∧
    grant g5 "subject" "file2" "other" {AccessRight.WRITE} = (false, g5) ∧
    has_right (grant g5 "subject" "file2" "other" {AccessRight.WRITE}).2 "other" "file2"
      AccessRight.WRITE = false := by
  refine ⟨?_, ?_, by decide, by decide⟩
  · rintro (h | h)
    · have h2 : ¬ has_right g subj src AccessRight.GRANT = true := by simp [h]
      simp [grant, h2]
    · by_cases h1 : has_right g subj src AccessRight.GRANT = true
      · by_cases hsr : get_rights g subj src = ∅
        · simp [grant, h1, hsr]
        · have hcard : ¬ 0 < (R ∩ get_rights g subj src).card := by
            rw [h]
            simp
          simp [grant, h1, hsr, h, rightsToList_empty, hcard]
      · simp [grant, h1]
  · rintro (h | h)
    · have h2 : ¬ has_right g subj src AccessRight.TAKE = true := by simp [h]
      simp [take, h2]
    · by_cases h1 : has_right g subj src AccessRight.TAKE = true
      · by_cases hsr : get_rights g src tgt = ∅
        · simp [take, h1, hsr]
        · have hcard : ¬ 0 < (R ∩ get_rights g src tgt).card := by
            rw [h]
            simp
          simp [take, h1, hsr, h, rightsToList_empty, hcard]
      · simp [take, h1]

/-- Witness for C5: a subject without TAKE on the source gets false and no
change. -/
theorem precondition_failure_no_change_witness :
    take g5 "subject" "file2" "other" {AccessRight.READ} = (false, g5) :=
  (precondition_failure_no_change g5 "subject" "file2" "other"
    {AccessRight.READ}).2.1 (Or.inl (by decide))


/-- Counterexample to C6 as stated: on a graph where `s` already holds READ
on `f`, `create(s, f, {WRITE})` returns true but `getRights(s, f)` is
`{READ, WRITE}`, not exactly the requested `{WRITE}`. -/
theorem create_not_exact :
    (create g6 "s" "f" (some {AccessRight.WRITE})).1 = true ∧
    ¬ get_rights (create g6 "s" "f" (some {AccessRight.WRITE})).2 "s" "f" =
      {AccessRight.WRITE} := by decide

/-- Claim C6 (amended): `create(s,o,R)` always returns true and afterwards
`getRights(s,o)` equals its previous value united with `R` (with all six
rights when `R` is omitted); when `s` previously held no rights on `o` the
result is exactly `R` (respectively exactly the six rights). -/
theorem create_spec (g : AccessGraph) (s o : String) (R : Finset AccessRight) :
    (create g s o (some R)).1 = true ∧
    (create g s o none).1 = true ∧
    get_rights (create g s o (some R)).2 s o = get_rights g s o ∪ R ∧
    get_rights (create g s o none).2 s o = get_rights g s o ∪ ALL_RIGHTS ∧
    (get_rights g s o = ∅ →
      get_rights (create g s o (some R)).2 s o = R ∧
      get_rights (create g s o none).2 s o = ALL_RIGHTS) := by
  have hsome : get_rights (create g s o (some R)).2 s o = get_rights g s o ∪ R := by
    simp only [create]
    rw [fold_add_get_rights, rightsToList_toFinset]
  have hnone : get_rights (create g s o none).2 s o = get_rights g s o ∪ ALL_RIGHTS := by
    simp only [create]
    rw [fold_add_get_rights, rightsToList_toFinset]
  refine ⟨rfl, rfl, hsome, hnone, ?_⟩
  intro hempty
  rw [hsome, hnone, hempty, Finset.empty_union, Finset.empty_union]
  exact ⟨rfl, rfl⟩

/-- Witness for C6 (amended): creating on a fresh edge yields exactly the
requested set. -/
theorem create_spec_witness :
    get_rights (create emptyAG "a" "b" (some {AccessRight.READ})).2 "a" "b" =
      {AccessRight.READ} :=
  ((create_spec emptyAG "a" "b" {AccessRight.READ}).2.2.2.2 (by decide)).1

end ClaimC4C5C6

section ClaimC8

theorem memberK_of_rights_ne (g : AccessGraph) (s o : String)
    (h : get_rights g s o ≠ ∅) : memberK g.graph (s, o) = true := by
  by_cases hm : memberK g.graph (s, o) = true
  · exact hm
  · exfalso
    apply h
    exact not_memberK_lookupD _ _ _ (by simpa using hm)

theorem remove_right_not_member (g : AccessGraph) (s o : String) (r : AccessRight)
    (h : memberK g.graph (s, o) = false) : remove_right g s o r = g := by
  simp [remove_right, h]

theorem fold_remove_not_member (L : List AccessRight) (g : AccessGraph) (s o : String)
    (h : memberK g.graph (s, o) = false) :
    L.foldl (fun h r => remove_right h s o r) g = g := by
  induction L with
  | nil => rfl
  | cons r L ih => rw [List.foldl_cons, remove_right_not_member g s o r h, ih]

theorem fold_remove_cleanup (L : List AccessRight) (g : AccessGraph) (s o : String)
    (hsub : get_rights g s o ⊆ L.toFinset) (hne : get_rights g s o ≠ ∅) :
    get_rights (L.foldl (fun h r => remove_right h s o r) g) s o = ∅ ∧
    memberK (L.foldl (fun h r => remove_right h s o r) g).graph (s, o) = false ∧
    ¬ o ∈ get_subject_objects (L.foldl (fun h r => remove_right h s o r) g) s ∧
    ¬ s ∈ get_object_subjects (L.foldl (fun h r => remove_right h s o r) g) o := by
  induction L generalizing g with
  | nil =>
    exfalso
    apply hne
    have : get_rights g s o ⊆ ∅ := by simpa using hsub
    exact Finset.subset_empty.mp this
  | cons r L ih =>
    have hmem : memberK g.graph (s, o) = true := memberK_of_rights_ne g s o hne
    rw [List.foldl_cons]
    by_cases hrs : (get_rights g s o).erase r = ∅
    · have hstep : remove_right g s o r =
          { graph := eraseK g.graph (s, o),
            subject_edges :=
              setK g.subject_edges s (removeStr o (lookupD g.subject_edges s [])),
            object_edges :=
              setK g.object_edges o (removeStr s (lookupD g.object_edges o [])) } := by
        simp only [remove_right, hmem, if_true, get_rights] at hrs ⊢
        rw [if_pos hrs]
      have hmem2 : memberK (remove_right g s o r).graph (s, o) = false := by
        rw [hstep]
        exact memberK_eraseK_self _ _
      rw [fold_remove_not_member L _ s o hmem2]
      refine ⟨?_, hmem2, ?_, ?_⟩
      · rw [hstep]
        simp only [get_rights]
        exact lookupD_eraseK_self _ _ _
      · rw [hstep]
        simp only [get_subject_objects]
        rw [lookupD_setK_self]
        exact not_mem_removeStr_self o _
      · rw [hstep]
        simp only [get_object_subjects]
        rw [lookupD_setK_self]
        exact not_mem_removeStr_self s _
    · have hstep : remove_right g s o r =
          { g with graph := setK g.graph (s, o) ((get_rights g s o).erase r) } := by
        simp only [remove_right, hmem, if_true, get_rights] at hrs ⊢
        rw [if_neg hrs]
      have hget : get_rights (remove_right g s o r) s o = (get_rights g s o).erase r := by
        rw [hstep]
        simp only [get_rights]
        exact lookupD_setK_self _ _ _ _
      have hsub2 : get_rights (remove_right g s o r) s o ⊆ L.toFinset := by
        rw [hget]
        intro x hx
        have hx2 := Finset.mem_of_mem_erase hx
        have hxr := Finset.ne_of_mem_erase hx
        have := hsub hx2
        rw [List.toFinset_cons, Finset.mem_insert] at this
        rcases this with h | h
        · exact absurd h hxr
        · exact h
      have hne2 : get_rights (remove_right g s o r) s o ≠ ∅ := by
        rw [hget]
        exact hrs
      exact ih (remove_right g s o r) hsub2 hne2

/-- Claim C8: removing every right currently on edge `(s,o)` via
`removeRight` leaves `getRights(s,o)` empty, deletes the edge entirely,
and removes the pair from both indices; `removeRight` on a nonexistent
edge, or for a right not present on a live edge, is a no-op that returns
the graph unchanged. -/
theorem remove_all_cleanup (g : AccessGraph) (s o : String) :
    (get_rights g s o ≠ ∅ →
      get_rights (removeRights g s o (get_rights g s o)) s o = ∅ ∧
      memberK (removeRights g s o (get_rights g s o)).graph (s, o) = false ∧
      ¬ o ∈ get_subject_objects (removeRights g s o (get_rights g s o)) s ∧
      ¬ s ∈ get_object_subjects (removeRights g s o (get_rights g s o)) o) ∧
    (∀ r : AccessRight, memberK g.graph (s, o) = false → remove_right g s o r = g) ∧
    (∀ r : AccessRight, ¬ r ∈ get_rights g s o → get_rights g s o ≠ ∅ →
      remove_right g s o r = g) := by
  refine ⟨?_, ?_, ?_⟩
  · intro hne
    have hsub : get_rights g s o ⊆ (rightsToList (get_rights g s o)).toFinset := by
      rw [rightsToList_toFinset]
    exact fold_remove_cleanup _ g s o hsub hne
  · intro r hm
    exact remove_right_not_member g s o r hm
  · intro r hr hne
    have hmem : memberK g.graph (s, o) = true := memberK_of_rights_ne g s o hne
    have herase : (lookupD g.graph (s, o) ∅).erase r = lookupD g.graph (s, o) ∅ :=
      Finset.erase_eq_of_not_mem hr
    have hrs : ¬ (lookupD g.graph (s, o) ∅).erase r = ∅ := by
      rw [herase]
      exact hne
    simp only [remove_right, hmem, if_true]
    rw [if_neg hrs, herase, setK_lookup_self _ _ _ hmem]

/-- Witness for C8 on a concrete two-right edge. -/
theorem remove_all_cleanup_witness :
    get_rights
      (removeRights (add_right (add_right emptyAG "a" "f" AccessRight.READ) "a" "f"
          AccessRight.WRITE) "a" "f"
        (get_rights (add_right (add_right emptyAG "a" "f" AccessRight.READ) "a" "f"
          AccessRight.WRITE) "a" "f")) "a" "f" = ∅ :=
  ((remove_all_cleanup (add_right (add_right emptyAG "a" "f" AccessRight.READ) "a" "f"
      AccessRight.WRITE) "a" "f").1 (by decide)).1

end ClaimC8

section ClaimC1

theorem pair_ne_left {s2 s o2 o : String} (hs : ¬ s2 = s) : ¬ (s2, o2) = (s, o) := by
  simp [Prod.mk.injEq, hs]

theorem pair_ne_right {s2 s o2 o : String} (ho : ¬ o2 = o) : ¬ (s2, o2) = (s, o) := by
  simp [Prod.mk.injEq, ho]

theorem mirror_add (g : AccessGraph) (hg : MirrorInv g) (s o : String) (r : AccessRight) :
    MirrorInv (add_right g s o r) := by
  intro s2 o2
  constructor
  · by_cases hs : s2 = s
    · subst hs
      by_cases ho : o2 = o
      · subst ho
        rw [get_subject_objects_add_self, get_rights_add_self]
        constructor
        · intro _
          exact Finset.insert_ne_empty r _
        · intro _
          exact mem_insertStr_self o2 _
      · rw [get_subject_objects_add_self,
          get_rights_add_ne _ _ _ _ _ _ (pair_ne_right ho)]
        have hbase := (hg s2 o2).1
        rw [mem_insertStr]
        constructor
        · rintro (h | h)
          · exact absurd h ho
          · exact hbase.mp h
        · intro h
          exact Or.inr (hbase.mpr h)
    · rw [get_subject_objects_add_ne _ _ _ _ _ hs,
        get_rights_add_ne _ _ _ _ _ _ (pair_ne_left hs)]
      exact (hg s2 o2).1
  · by_cases ho : o2 = o
    · subst ho
      by_cases hs : s2 = s
      · subst hs
        rw [get_object_subjects_add_self, get_rights_add_self]
        constructor
        · intro _
          exact Finset.insert_ne_empty r _
        · intro _
          exact mem_insertStr_self s2 _
      · rw [get_object_subjects_add_self,
          get_rights_add_ne _ _ _ _ _ _ (pair_ne_left hs)]
        have hbase := (hg s2 o2).2
        rw [mem_insertStr]
        constructor
        · rintro (h | h)
          · exact absurd h hs
          · exact hbase.mp h
        · intro h
          exact Or.inr (hbase.mpr h)
    · rw [get_object_subjects_add_ne _ _ _ _ _ ho,
        get_rights_add_ne _ _ _ _ _ _ (pair_ne_right ho)]
      exact (hg s2 o2).2

theorem mirror_remove (g : AccessGraph) (hg : MirrorInv g) (s o : String)
    (r : AccessRight) : MirrorInv (remove_right g s o r) := by
  by_cases hmem : memberK g.graph (s, o) = true
  · by_cases hrs : (lookupD g.graph (s, o) ∅).erase r = ∅
    · have hstep : remove_right g s o r =
          { graph := eraseK g.graph (s, o),
            subject_edges :=
              setK g.subject_edges s (removeStr o (lookupD g.subject_edges s [])),
            object_edges :=
              setK g.object_edges o (removeStr s (lookupD g.object_edges o [])) } := by
        simp only [remove_right, hmem, if_true]
        rw [if_pos hrs]
      intro s2 o2
      rw [hstep]
      constructor
      · by_cases hs : s2 = s
        · subst hs
          simp only [get_subject_objects, get_rights]
          rw [lookupD_setK_self]
          by_cases ho : o2 = o
          · subst ho
            rw [lookupD_eraseK_self]
            constructor
            · intro h
              exact absurd h (not_mem_removeStr_self o2 _)
            · intro h
              exact absurd rfl h
          · rw [lookupD_eraseK_ne _ _ _ _ (pair_ne_right ho)]
            have hbase := (hg s2 o2).1
            simp only [get_subject_objects, get_rights] at hbase
            rw [mem_removeStr]
            constructor
            · intro h
              exact hbase.mp h.2
            · intro h
              exact ⟨ho, hbase.mpr h⟩
        · simp only [get_subject_objects, get_rights]
          rw [lookupD_setK_ne _ _ _ _ _ hs,
            lookupD_eraseK_ne _ _ _ _ (pair_ne_left hs)]
          exact (hg s2 o2).1
      · by_cases ho : o2 = o
        · subst ho
          simp only [get_object_subjects, get_rights]
          rw [lookupD_setK_self]
          by_cases hs : s2 = s
          · subst hs
            rw [lookupD_eraseK_self]
            constructor
            · intro h
              exact absurd h (not_mem_removeStr_self s2 _)
            · intro h
              exact absurd rfl h
          · rw [lookupD_eraseK_ne _ _ _ _ (pair_ne_left hs)]
            have hbase := (hg s2 o2).2
            simp only [get_object_subjects, get_rights] at hbase
            rw [mem_removeStr]
            constructor
            · intro h
              exact hbase.mp h.2
            · intro h
              exact ⟨hs, hbase.mpr h⟩
        · simp only [get_object_subjects, get_rights]
          rw [lookupD_setK_ne _ _ _ _ _ ho,
            lookupD_eraseK_ne _ _ _ _ (pair_ne_right ho)]
          exact (hg s2 o2).2
    · have hstep : remove_right g s o r =
          { g with graph := setK g.graph (s, o) ((lookupD g.graph (s, o) ∅).erase r) } := by
        simp only [remove_right, hmem, if_true]
        rw [if_neg hrs]
      have hne : lookupD g.graph (s, o) ∅ ≠ ∅ := by
        intro hh
        apply hrs
        rw [hh]
        exact Finset.erase_empty r
      intro s2 o2
      rw [hstep]
      constructor
      · by_cases hpair : (s2, o2) = (s, o)
        · have hs : s2 = s := (Prod.mk.injEq _ _ _ _ ▸ hpair).1
          have ho : o2 = o := (Prod.mk.injEq _ _ _ _ ▸ hpair).2
          subst hs
          subst ho
          simp only [get_subject_objects, get_rights]
          rw [lookupD_setK_self]
          constructor
          · intro _
            exact hrs
          · intro _
            exact ((hg s2 o2).1).mpr hne
        · simp only [get_subject_objects, get_rights]
          rw [lookupD_setK_ne _ _ _ _ _ hpair]
          exact (hg s2 o2).1
      · by_cases hpair : (s2, o2) = (s, o)
        · have hs : s2 = s := (Prod.mk.injEq _ _ _ _ ▸ hpair).1
          have ho : o2 = o := (Prod.mk.injEq _ _ _ _ ▸ hpair).2
          subst hs
          subst ho
          simp only [get_object_subjects, get_rights]
          rw [lookupD_setK_self]
          constructor
          · intro _
            exact hrs
          · intro _
            exact ((hg s2 o2).2).mpr hne
        · simp only [get_object_subjects, get_rights]
          rw [lookupD_setK_ne _ _ _ _ _ hpair]
          exact (hg s2 o2).2
  · have hstep : remove_right g s o r = g := by
      simp [remove_right, hmem]
    rw [hstep]
    exact hg

theorem mirror_fold_add (L : List AccessRight) (g : AccessGraph) (hg : MirrorInv g)
    (s o : String) : MirrorInv (L.foldl (fun h r => add_right h s o r) g) := by
  induction L generalizing g with
  | nil => exact hg
  | cons r L ih => exact ih _ (mirror_add g hg s o r)

theorem mirror_fold_remove (L : List AccessRight) (g : AccessGraph) (hg : MirrorInv g)
    (s o : String) : MirrorInv (L.foldl (fun h r => remove_right h s o r) g) := by
  induction L generalizing g with
  | nil => exact hg
  | cons r L ih => exact ih _ (mirror_remove g hg s o r)

theorem mirror_applyOp (g : AccessGraph) (hg : MirrorInv g) (op : CoreOp) :
    MirrorInv (applyOp g op) := by
  cases op with
  | addR s o r => exact mirror_add g hg s o r
  | remR s o r => exact mirror_remove g hg s o r
  | takeOp s src tgt rs =>
    simp only [applyOp, take]
    split_ifs <;> first
      | exact hg
      | exact mirror_fold_add _ _ hg _ _
  | grantOp s src tgt rs =>
    simp only [applyOp, grant]
    split_ifs <;> first
      | exact hg
      | exact mirror_fold_add _ _ hg _ _
  | createOp s o rs =>
    simp only [applyOp, create]
    exact mirror_fold_add _ _ hg _ _
  | removeOp s o rs =>
    simp only [applyOp, removeRights]
    exact mirror_fold_remove _ _ hg _ _

theorem mirror_empty : MirrorInv emptyAG := by
  intro s o
  constructor <;>
    simp [get_subject_objects, get_object_subjects, get_rights, emptyAG, lookupD_nil]

/-- Claim C1 (amended): after every sequence of core mutators (addRight,
removeRight, take, grant, create, remove) starting from the empty graph,
the two derived indices exactly mirror the primary edge map: a pair is in
the indices exactly when the edge exists with a non-empty right-set. The
surrounding layer's bulk object deletion is excluded: it removes entries
from the edge map without touching the indices and breaks the invariant. -/
theorem core_mirror_invariant (ops : List CoreOp) : MirrorInv (runOps ops) := by
  have h : ∀ (l : List CoreOp) (g : AccessGraph),
      MirrorInv g → MirrorInv (l.foldl applyOp g) := by
    intro l
    induction l with
    | nil => exact fun g hg => hg
    | cons op l ih =>
      intro g hg
      exact ih _ (mirror_applyOp g hg op)
  exact h ops emptyAG mirror_empty


/-- Counterexample to C1 as stated: after the bulk object deletion of the
surrounding layer the subject index still lists the deleted object while
the edge map holds no edge, so the indices do not mirror the edge map. -/
theorem delete_object_breaks_mirror :
    "f" ∈ get_subject_objects g1bug "a" ∧
    get_rights g1bug "a" "f" = ∅ ∧
    ¬ MirrorInv g1bug := by
  refine ⟨by decide, by decide, ?_⟩
  intro h
  have h2 := (h "a" "f").1
  have h3 : ("f" : String) ∈ get_subject_objects g1bug "a" := by decide
  have h4 : get_rights g1bug "a" "f" = ∅ := by decide
  exact (h2.mp h3) h4

end ClaimC1

section ClaimC7

theorem mem_foldr_union (l : List (String × List String)) (p : String × List String)
    (hp : p ∈ l) (x : String) (hx : x ∈ p.2) :
    x ∈ l.foldr (fun q acc => q.2.toFinset ∪ acc) ∅ := by
  induction l with
  | nil => cases hp
  | cons q l ih =>
    rw [List.foldr_cons]
    rcases List.mem_cons.mp hp with h | h
    · apply Finset.mem_union_left
      rw [List.mem_toFinset, ← h]
      exact hx
    · exact Finset.mem_union_right _ (ih h)

theorem mem_subjUniverse (g : AccessGraph) (c i : String)
    (h : i ∈ get_subject_objects g c) : i ∈ subjUniverse g := by
  by_cases hm : memberK g.subject_edges c = true
  · have hmem := lookupD_mem g.subject_edges c [] hm
    exact mem_foldr_union g.subject_edges (c, lookupD g.subject_edges c []) hmem i h
  · have h2 : memberK g.subject_edges c = false := by simpa using hm
    rw [get_subject_objects, not_memberK_lookupD _ _ _ h2] at h
    cases h

theorem anyStep_isSome (l : List String) (f : String → Option Bool)
    (h : ∀ x ∈ l, (f x).isSome = true) : (anyStep l f).isSome = true := by
  induction l with
  | nil => rfl
  | cons x xs ih =>
    simp only [anyStep]
    cases hfx : f x with
    | none =>
      have h2 := h x (List.mem_cons_self x xs)
      rw [hfx] at h2
      simp at h2
    | some b =>
      cases b
      · exact ih (fun y hy => h y (List.mem_cons_of_mem x hy))
      · rfl

theorem dfs_search_isSome_of_mem (g : AccessGraph) (tgt : String) (r : AccessRight) :
    ∀ (fuel : Nat) (cur : String) (visited : Finset String),
      cur ∈ subjUniverse g →
      (subjUniverse g \ visited).card + 1 ≤ fuel →
      (dfs_search g tgt r fuel cur visited).isSome = true := by
  intro fuel
  induction fuel with
  | zero =>
    intro cur visited _ hb
    exact absurd hb (by omega)
  | succ fuel ih =>
    intro cur visited hcur hb
    simp only [dfs_search]
    by_cases hv : cur ∈ visited
    · simp [hv]
    · simp only [hv, if_false]
      by_cases hd : has_right g cur tgt r = true
      · simp [hd]
      · have hd2 : has_right g cur tgt r = false := by simpa using hd
        simp only [hd2, Bool.false_eq_true, if_false]
        have hstep : (anyStep (get_subject_objects g cur) (fun i =>
            if ¬ has_right g cur i AccessRight.TAKE then some false
            else if has_right g i tgt r then some true
            else dfs_search g tgt r fuel i (insert cur visited))).isSome = true := by
          apply anyStep_isSome
          intro i hi
          by_cases ht : has_right g cur i AccessRight.TAKE = true
          · by_cases hdir : has_right g i tgt r = true
            · simp [ht, hdir]
            · have hiU : i ∈ subjUniverse g := mem_subjUniverse g cur i hi
              have hcurd : cur ∈ subjUniverse g \ visited :=
                Finset.mem_sdiff.mpr ⟨hcur, hv⟩
              have heq : subjUniverse g \ insert cur visited =
                  (subjUniverse g \ visited).erase cur := by
                ext y
                simp only [Finset.mem_sdiff, Finset.mem_erase, Finset.mem_insert]
                constructor
                · rintro ⟨hy1, hy2⟩
                  exact ⟨fun hh => hy2 (Or.inl hh), hy1, fun hh => hy2 (Or.inr hh)⟩
                · rintro ⟨hy1, hy2, hy3⟩
                  exact ⟨hy2, fun hh => hh.elim hy1 hy3⟩
              have hcard : 0 < (subjUniverse g \ visited).card :=
                Finset.card_pos.mpr ⟨cur, hcurd⟩
              have hb2 : (subjUniverse g \ insert cur visited).card + 1 ≤ fuel := by
                rw [heq, Finset.card_erase_of_mem hcurd]
                omega
              have hrec := ih i (insert cur visited) hiU hb2
              simp [ht, hdir, hrec]
          · simp [ht]
        cases hany : anyStep (get_subject_objects g cur) (fun i =>
            if ¬ has_right g cur i AccessRight.TAKE then some false
            else if has_right g i tgt r then some true
            else dfs_search g tgt r fuel i (insert cur visited)) with
        | none =>
          rw [hany] at hstep
          simp at hstep
        | some b =>
          cases b <;> simp [hany]

theorem dfs_search_fuel_sufficient (g : AccessGraph) (tgt : String) (r : AccessRight)
    (fuel : Nat) (cur : String) (visited : Finset String)
    (h : (subjUniverse g \ visited).card + 2 ≤ fuel) :
    (dfs_search g tgt r fuel cur visited).isSome = true := by
  cases fuel with
  | zero => exact absurd h (by omega)
  | succ fuel =>
    simp only [dfs_search]
    by_cases hv : cur ∈ visited
    · simp [hv]
    · simp only [hv, if_false]
      by_cases hd : has_right g cur tgt r = true
      · simp [hd]
      · have hd2 : has_right g cur tgt r = false := by simpa using hd
        simp only [hd2, Bool.false_eq_true, if_false]
        have hstep : (anyStep (get_subject_objects g cur) (fun i =>
            if ¬ has_right g cur i AccessRight.TAKE then some false
            else if has_right g i tgt r then some true
            else dfs_search g tgt r fuel i (insert cur visited))).isSome = true := by
          apply anyStep_isSome
          intro i hi
          by_cases ht : has_right g cur i AccessRight.TAKE = true
          · by_cases hdir : has_right g i tgt r = true
            · simp [ht, hdir]
            · have hiU : i ∈ subjUniverse g := mem_subjUniverse g cur i hi
              have hsub : subjUniverse g \ insert cur visited ⊆
                  subjUniverse g \ visited :=
                Finset.sdiff_subset_sdiff (le_refl _) (Finset.subset_insert cur visited)
              have hb2 : (subjUniverse g \ insert cur visited).card + 1 ≤ fuel := by
                have := Finset.card_le_card hsub
                omega
              have hrec := dfs_search_isSome_of_mem g tgt r fuel i
                (insert cur visited) hiU hb2
              simp [ht, hdir, hrec]
          · simp [ht]
        cases hany : anyStep (get_subject_objects g cur) (fun i =>
            if ¬ has_right g cur i AccessRight.TAKE then some false
            else if has_right g i tgt r then some true
            else dfs_search g tgt r fuel i (insert cur visited)) with
        | none =>
          rw [hany] at hstep
          simp at hstep
        | some b =>
          cases b <;> simp [hany]

theorem dfs_bigFuel_isSome (g : AccessGraph) (tgt : String) (r : AccessRight)
    (s : String) : (dfs_search g tgt r (bigFuel g) s ∅).isSome = true := by
  apply dfs_search_fuel_sufficient
  rw [Finset.sdiff_empty]
  exact le_refl _

/-- Claim C7: the recursive DFS of `canAccess` terminates: the set of
not-yet-visited recursion candidates strictly shrinks along every take
branch, so fuel exceeding the number of unvisited candidates by two always
suffices for the fuel-indexed search to deliver a result. -/
theorem dfs_search_terminates (g : AccessGraph) (tgt : String) (r : AccessRight)
    (fuel : Nat) (cur : String) (visited : Finset String)
    (h : (subjUniverse g \ visited).card + 2 ≤ fuel) :
    (dfs_search g tgt r fuel cur visited).isSome = true :=
  dfs_search_fuel_sufficient g tgt r fuel cur visited h

/-- Witness for C7 on the empty graph with the minimal sufficient fuel. -/
theorem dfs_search_terminates_witness :
    (dfs_search emptyAG "o" AccessRight.READ 2 "s" ∅).isSome = true :=
  dfs_search_terminates emptyAG "o" AccessRight.READ 2 "s" ∅ (by decide)

end ClaimC7

section ClaimC3

theorem dfs_search_succ (g : AccessGraph) (tgt : String) (r : AccessRight)
    (fuel : Nat) (cur : String) (visited : Finset String) :
    dfs_search g tgt r (fuel + 1) cur visited =
      if cur ∈ visited then some false
      else if has_right g cur tgt r then some true
      else
        match anyStep (get_subject_objects g cur) (fun i =>
            if ¬ has_right g cur i AccessRight.TAKE then some false
            else if has_right g i tgt r then some true
            else dfs_search g tgt r fuel i (insert cur visited)) with
        | some true => some true
        | some false => some (grantBranch g tgt r)
        | none => none := rfl

/-- Claim C3: if any subject `G` (listed in the object index) holds GRANT
on some `I` that itself holds `r` on `O`, then `canAccess(S, O, r)` is
true for every subject `S` whatsoever — even one appearing in no edge —
because the grant-branch of the search never consults `S`'s connectivity.
The index hypothesis states the object index covers the live edges, as
every graph state reachable through the program's mutators does. -/
theorem grant_branch_ignores_subject (g : AccessGraph) (S O : String) (r : AccessRight)
    (G I : String)
    (hidx : ∀ p ∈ g.graph, p.2 ≠ ∅ → p.1.1 ∈ get_object_subjects g p.1.2)
    (hG : has_right g G I AccessRight.GRANT = true)
    (hI : has_right g I O r = true) :
    can_access g S O r = true := by
  have hgb : grantBranch g O r = true := by
    have hmem : memberK g.graph (G, I) = true := by
      simp only [has_right, Bool.and_eq_true] at hG
      exact hG.1
    have hGr : AccessRight.GRANT ∈ lookupD g.graph (G, I) ∅ := by
      simp only [has_right, Bool.and_eq_true, decide_eq_true_eq] at hG
      exact hG.2
    have hentry : ((G, I), lookupD g.graph (G, I) ∅) ∈ g.graph :=
      lookupD_mem g.graph (G, I) ∅ hmem
    have hne : lookupD g.graph (G, I) ∅ ≠ ∅ := by
      intro hh
      rw [hh] at hGr
      exact absurd hGr (Finset.not_mem_empty _)
    have hGidx : G ∈ get_object_subjects g I := hidx _ hentry hne
    have hIobj : I ∈ allObjects g := by
      rw [allObjects, List.mem_dedup]
      exact List.mem_map.mpr ⟨((G, I), lookupD g.graph (G, I) ∅), hentry, rfl⟩
    rw [grantBranch, List.any_eq_true]
    refine ⟨I, hIobj, ?_⟩
    rw [List.any_eq_true]
    refine ⟨G, ?_, ?_⟩
    · exact hGidx
    · rw [Bool.and_eq_true]
      exact ⟨hG, hI⟩
  by_cases hdir : has_right g S O r = true
  · simp [can_access, hdir]
  · have hdir2 : has_right g S O r = false := by simpa using hdir
    rw [can_access, if_neg (by simp [hdir2])]
    have hsome := dfs_bigFuel_isSome g O r S
    obtain ⟨b, hb⟩ := Option.isSome_iff_exists.mp hsome
    rw [hb]
    rw [show bigFuel g = (subjUniverse g).card + 1 + 1 from rfl] at hb
    rw [dfs_search_succ] at hb
    rw [if_neg (Finset.not_mem_empty S)] at hb
    rw [if_neg (by simp [hdir2])] at hb
    cases hany : anyStep (get_subject_objects g S) (fun i =>
        if ¬ has_right g S i AccessRight.TAKE then some false
        else if has_right g i O r then some true
        else dfs_search g O r ((subjUniverse g).card + 1) i (insert S ∅)) with
    | none =>
      rw [hany] at hb
      cases hb
    | some b2 =>
      rw [hany] at hb
      cases b2
      · simp only [] at hb
        rw [hgb] at hb
        have hbb := Option.some.inj hb
        rw [← hbb]
        rfl
      · have hbb := Option.some.inj hb
        rw [← hbb]
        rfl

/-- Witness for C3: `Z` appears nowhere in the graph, yet the grant
configuration G-GRANT-I, I-READ-O makes canAccess(Z, O, READ) true. -/
theorem grant_branch_ignores_subject_witness :
    can_access (add_right (add_right emptyAG "G" "I" AccessRight.GRANT) "I" "O"
      AccessRight.READ) "Z" "O" AccessRight.READ = true :=
  grant_branch_ignores_subject
    (add_right (add_right emptyAG "G" "I" AccessRight.GRANT) "I" "O" AccessRight.READ)
    "Z" "O" AccessRight.READ "G" "I" (by decide) (by decide) (by decide)

end ClaimC3

section ClaimC2

theorem anyStep_ne_some_true (l : List String) (f : String → Option Bool)
    (h : ∀ x ∈ l, f x ≠ some true) : anyStep l f ≠ some true := by
  induction l with
  | nil =>
    intro hh
    cases hh
  | cons x xs ih =>
    simp only [anyStep]
    cases hfx : f x with
    | none =>
      intro hh
      cases hh
    | some b =>
      cases b
      · exact ih (fun y hy => h y (List.mem_cons_of_mem x hy))
      · exact absurd hfx (h x (List.mem_cons_self x xs))

theorem has_right_cross (g : AccessGraph) (A : Finset String)
    (hpart : ∀ p ∈ g.graph, p.2 ≠ ∅ →
      (p.1.1 ∈ A ∧ p.1.2 ∈ A) ∨ (¬ p.1.1 ∈ A ∧ ¬ p.1.2 ∈ A))
    (a b : String) (rr : AccessRight) (ha : a ∈ A) (hb : ¬ b ∈ A) :
    has_right g a b rr = false := by
  by_cases h : has_right g a b rr = true
  · exfalso
    simp only [has_right, Bool.and_eq_true, decide_eq_true_eq] at h
    obtain ⟨hm, hr⟩ := h
    have hentry := lookupD_mem g.graph (a, b) ∅ hm
    have hne : lookupD g.graph (a, b) ∅ ≠ ∅ := by
      intro hh
      rw [hh] at hr
      exact absurd hr (Finset.not_mem_empty _)
    rcases hpart _ hentry hne with ⟨h1, h2⟩ | ⟨h1, h2⟩
    · exact hb h2
    · exact h1 ha
  · simpa using h

theorem edge_stays_inside (g : AccessGraph) (A : Finset String)
    (hpart : ∀ p ∈ g.graph, p.2 ≠ ∅ →
      (p.1.1 ∈ A ∧ p.1.2 ∈ A) ∨ (¬ p.1.1 ∈ A ∧ ¬ p.1.2 ∈ A))
    (a b : String) (rr : AccessRight) (ha : a ∈ A)
    (h : has_right g a b rr = true) : b ∈ A := by
  simp only [has_right, Bool.and_eq_true, decide_eq_true_eq] at h
  obtain ⟨hm, hr⟩ := h
  have hentry := lookupD_mem g.graph (a, b) ∅ hm
  have hne : lookupD g.graph (a, b) ∅ ≠ ∅ := by
    intro hh
    rw [hh] at hr
    exact absurd hr (Finset.not_mem_empty _)
  rcases hpart _ hentry hne with ⟨h1, h2⟩ | ⟨h1, h2⟩
  · exact h2
  · exact absurd ha h1

theorem dfs_no_cross (g : AccessGraph) (A : Finset String) (Y : String) (r : AccessRight)
    (hpart : ∀ p ∈ g.graph, p.2 ≠ ∅ →
      (p.1.1 ∈ A ∧ p.1.2 ∈ A) ∨ (¬ p.1.1 ∈ A ∧ ¬ p.1.2 ∈ A))
    (hY : ¬ Y ∈ A) (hgrant : grantBranch g Y r = false) :
    ∀ (fuel : Nat) (cur : String) (visited : Finset String), cur ∈ A →
      dfs_search g Y r fuel cur visited ≠ some true := by
  intro fuel
  induction fuel with
  | zero =>
    intro cur visited _ hh
    cases hh
  | succ fuel ih =>
    intro cur visited hcur
    rw [dfs_search_succ]
    by_cases hv : cur ∈ visited
    · rw [if_pos hv]
      intro hh
      cases hh
    · rw [if_neg hv]
      have hdir : has_right g cur Y r = false :=
        has_right_cross g A hpart cur Y r hcur hY
      rw [if_neg (by simp [hdir])]
      have hany : anyStep (get_subject_objects g cur) (fun i =>
          if ¬ has_right g cur i AccessRight.TAKE then some false
          else if has_right g i Y r then some true
          else dfs_search g Y r fuel i (insert cur visited)) ≠ some true := by
        apply anyStep_ne_some_true
        intro i hi
        by_cases ht : has_right g cur i AccessRight.TAKE = true
        · have hiA : i ∈ A := edge_stays_inside g A hpart cur i AccessRight.TAKE hcur ht
          have hdi : has_right g i Y r = false :=
            has_right_cross g A hpart i Y r hiA hY
          rw [if_neg (by simp [ht]), if_neg (by simp [hdi])]
          exact ih i (insert cur visited) hiA
        · rw [if_pos ht]
          intro hh
          cases hh
      cases han : anyStep (get_subject_objects g cur) (fun i =>
          if ¬ has_right g cur i AccessRight.TAKE then some false
          else if has_right g i Y r then some true
          else dfs_search g Y r fuel i (insert cur visited)) with
      | none =>
        intro hh
        cases hh
      | some b =>
        cases b
        · rw [hgrant]
          intro hh
          cases Option.some.inj hh
        · exact absurd han hany

/-- Claim C2 (amended): for a graph split into two parts with no edge
crossing the partition, a subject X in one part, and a target Y outside
it, `canAccess(X, Y, r)` is false and `getAccessibleObjects(X, r)`
excludes Y, provided additionally that the global grant-branch condition
is empty — no subject anywhere holds GRANT on a node that itself holds
`r` on `Y`. Without that proviso the claim fails, because the
grant-branch never consults X's connectivity. -/
theorem disjoint_no_access (g : AccessGraph) (A : Finset String) (X Y : String)
    (r : AccessRight) (hX : X ∈ A) (hY : ¬ Y ∈ A)
    (hpart : ∀ p ∈ g.graph, p.2 ≠ ∅ →
      (p.1.1 ∈ A ∧ p.1.2 ∈ A) ∨ (¬ p.1.1 ∈ A ∧ ¬ p.1.2 ∈ A))
    (hgrant : grantBranch g Y r = false) :
    can_access g X Y r = false ∧ ¬ Y ∈ get_accessible_objects g X r := by
  have hdir : has_right g X Y r = false := has_right_cross g A hpart X Y r hX hY
  have hfa : can_access g X Y r = false := by
    rw [can_access, if_neg (by simp [hdir])]
    have hne := dfs_no_cross g A Y r hpart hY hgrant (bigFuel g) X ∅ hX
    cases hd : dfs_search g Y r (bigFuel g) X ∅ with
    | none => rfl
    | some b =>
      cases b
      · rfl
      · exact absurd hd hne
  refine ⟨hfa, ?_⟩
  intro hmem
  rw [get_accessible_objects, List.mem_filter] at hmem
  rw [hfa] at hmem
  exact Bool.false_ne_true hmem.2


/-- Witness for the amended C2. -/
theorem disjoint_no_access_witness :
    can_access gw2 "X" "Y" AccessRight.READ = false ∧
    ¬ "Y" ∈ get_accessible_objects gw2 "X" AccessRight.READ :=
  disjoint_no_access gw2 {"X", "A"} "X" "Y" AccessRight.READ
    (by decide) (by decide) (by decide) (by decide)


/-- Counterexample to C2 as stated: every edge of g2 stays inside one of
the two disjoint components, X is in one and Y in the other, yet
`canAccess(X, Y, READ)` returns true and `getAccessibleObjects(X, READ)`
contains Y, through the grant-branch of the search. -/
theorem disjoint_counterexample :
    (∀ p ∈ g2.graph,
      (p.1.1 ∈ ({"X", "A"} : Finset String) ∧
        p.1.2 ∈ ({"X", "A"} : Finset String)) ∨
      (p.1.1 ∈ ({"G", "I", "Y"} : Finset String) ∧
        p.1.2 ∈ ({"G", "I", "Y"} : Finset String))) ∧
    can_access g2 "X" "Y" AccessRight.READ = true ∧
    "Y" ∈ get_accessible_objects g2 "X" AccessRight.READ := by decide

end ClaimC2
